import Mathlib

/-!
Concurrent traffic simulation: `MessageQueue` and `TrafficLight`.

A shallow embedding of `src/TrafficLight.cpp`.

* `MessageQueue<T>` becomes a structure around its `_queue`; `send` and `receive`
  are state transformers.  A `receive` whose wait predicate `!_queue.empty()` is
  false does not return: it is `none` here.
* `TrafficLight` becomes a structure with `_currentPhase` and the channel `mq`.
  The body of the endless loop of `cycleThroughPhases` is one function; the loop
  itself is a fold over the durations measured in the successive iterations.
* Durations are exact rationals (seconds); the rounding of `float` is not modelled.
* The mutexes are modelled separately, as the trace of lock events each member
  function performs.
-/

namespace TrafficSim

/-! ## Data model -/

/-- Modelled from the spec: the enumeration `TrafficLightPhase` is declared in
`TrafficLight.h`, which is not among the sources; its two values `red` and `green`
are the ones the source compares with and assigns. -/
inductive TrafficLightPhase where
  | red
  | green
deriving DecidableEq, Repr

open TrafficLightPhase

/-- The class `MessageQueue<T>`.  Its member `_queue` is declared in the missing
header; the source uses it through `empty`, `back`, `clear` and `emplace_back`, so it
is a sequence whose back is the last element of the list.  The element type is a
plain value (the only instantiation is `TrafficLightPhase`), for which `std::move`
copies. -/
structure MessageQueue (T : Type) where
  _queue : List T
deriving DecidableEq, Repr

namespace MessageQueue

variable {T : Type}

/-- `MessageQueue<T>::receive` (lines 16-28).  The wait predicate is
`!_queue.empty()`: on an empty queue the call stays blocked (`none`).  Otherwise
`_queue.back()` is moved into `currentLight` and returned; no member function that
removes an element is called, so `_queue` is what it was. -/
def receive (q : MessageQueue T) : Option (T × MessageQueue T) :=
  match q._queue.getLast? with
  | none => none
  | some currentLight => some (currentLight, q)

/-- `MessageQueue<T>::send` (lines 30-39): `_queue.clear()` followed by
`_queue.emplace_back(std::move(msg))`. -/
def send (q : MessageQueue T) (msg : T) : MessageQueue T :=
  let cleared : MessageQueue T := { q with _queue := [] }
  { cleared with _queue := cleared._queue ++ [msg] }

end MessageQueue

/-- An operation a thread performs on the channel. -/
inductive ChanOp (T : Type) where
  | send (v : T)
  | receive
deriving DecidableEq, Repr

namespace ChanOp

variable {T : Type}

/-- The channel after one operation; a `receive` that blocks changes nothing. -/
def apply (op : ChanOp T) (q : MessageQueue T) : MessageQueue T :=
  match op with
  | .send v => q.send v
  | .receive =>
    match q.receive with
    | some (_, q') => q'
    | none => q

/-- The value an operation returns: `send` returns nothing, `receive` returns the
received value when it does not block. -/
def result (op : ChanOp T) (q : MessageQueue T) : Option T :=
  match op with
  | .send _ => none
  | .receive => (q.receive).map Prod.fst

end ChanOp

/-- The channel after a sequence of operations. -/
def runOps {T : Type} (ops : List (ChanOp T)) (q : MessageQueue T) : MessageQueue T :=
  ops.foldl (fun acc op => op.apply acc) q

/-- The values returned by the `receive` calls of a sequence of operations, in
order. -/
def received {T : Type} : List (ChanOp T) → MessageQueue T → List T
  | [], _ => []
  | op :: ops, q =>
    match op.result q with
    | some v => v :: received ops (op.apply q)
    | none => received ops (op.apply q)

/-- The channel of a newly constructed `MessageQueue`: nothing pending. -/
def MessageQueue.empty {T : Type} : MessageQueue T := { _queue := [] }

/-! ## The traffic light -/

/-- The class `TrafficLight`: the member `_currentPhase` and the channel `mq` it
owns. -/
structure TrafficLight where
  _currentPhase : TrafficLightPhase
  mq : MessageQueue TrafficLightPhase
deriving DecidableEq, Repr

namespace TrafficLight

/-- The constructor `TrafficLight::TrafficLight` (lines 45-48): `_currentPhase = red`
(a declaration cannot carry the name of its own structure here, hence `new`).
Modelled from the spec: the initialisation of the member `mq` is in the missing
header; the spec gives a new instance an empty channel. -/
def new : TrafficLight :=
  { _currentPhase := red, mq := MessageQueue.empty }

/-- `TrafficLight::getCurrentPhase` (lines 64-67). -/
def getCurrentPhase (tl : TrafficLight) : TrafficLightPhase :=
  tl._currentPhase

end TrafficLight

/-- The loop of `TrafficLight::waitForGreen` (lines 56-61) over any source of
received values: `recv` is the call `mq->receive()`, which either blocks (`none`) or
returns a phase and the next state of the source.  The loop returns the phase it
received when that phase is `green` and otherwise receives again.  `fuel` bounds the
number of `receive` calls; `none` is a loop that has not returned. -/
def waitForGreenLoop {σ : Type} (recv : σ → Option (TrafficLightPhase × σ)) :
    Nat → σ → Option (TrafficLightPhase × σ)
  | 0, _ => none
  | fuel + 1, s =>
    match recv s with
    | none => none
    | some (currentLight, s') =>
      if currentLight = green then some (currentLight, s')
      else waitForGreenLoop recv fuel s'

/-- `TrafficLight::waitForGreen` (lines 50-62) run on its own, no other thread
sending in between: every `receive` is taken from the light's channel. -/
def TrafficLight.waitForGreen (fuel : Nat) (tl : TrafficLight) :
    Option (TrafficLightPhase × TrafficLight) :=
  (waitForGreenLoop MessageQueue.receive fuel tl.mq).map
    (fun r => (r.1, { tl with mq := r.2 }))

/-- A sequence of phases delivered by successive `receive` calls: each call returns
the head of the sequence; when nothing more is delivered the call blocks. -/
def deliver : List TrafficLightPhase → Option (TrafficLightPhase × List TrafficLightPhase)
  | [] => none
  | p :: rest => some (p, rest)

/-! ## The timing loop -/

/-- `std::chrono::duration_cast<std::chrono::seconds>` applied to a duration counted
in (fractional) seconds: the count is truncated towards zero. -/
def truncSec (e : ℚ) : ℤ :=
  if 0 ≤ e then ⌊e⌋ else ⌈e⌉

/-- The toggle of lines 98-101: `green` becomes `red`, otherwise `red` becomes
`green`. -/
def toggle (p : TrafficLightPhase) : TrafficLightPhase :=
  if p = green then red
  else if p = red then green
  else p

/-- The state the loop of `cycleThroughPhases` works on: the light and the local
`timeSinceLastUpdate` (seconds). -/
structure CycleState where
  tl : TrafficLight
  timeSinceLastUpdate : ℚ
deriving DecidableEq

/-- The test of line 96: `timeIntervalSec.count() >= randomSeconds`, where
`timeIntervalSec` is `timeSinceLastUpdate` cast to whole seconds. -/
def flipDue (randomSeconds timeSinceLastUpdate : ℚ) : Prop :=
  randomSeconds ≤ (truncSec timeSinceLastUpdate : ℚ)

instance (randomSeconds timeSinceLastUpdate : ℚ) :
    Decidable (flipDue randomSeconds timeSinceLastUpdate) :=
  inferInstanceAs (Decidable (randomSeconds ≤ (truncSec timeSinceLastUpdate : ℚ)))

/-- One iteration of the loop of `TrafficLight::cycleThroughPhases` (lines 93-107).
`randomSeconds` is the threshold drawn before the loop and `measured` is `end - start`
of this iteration.  When the test of line 96 holds the phase is toggled,
`timeSinceLastUpdate` is reset and the new phase is sent (the phase is a plain
value, so `_currentPhase` keeps it after the send); in both cases `measured` is then
added to `timeSinceLastUpdate`. -/
def cycleIteration (randomSeconds measured : ℚ) (s : CycleState) : CycleState :=
  if flipDue randomSeconds s.timeSinceLastUpdate then
    let newPhase := toggle s.tl._currentPhase
    let tl' : TrafficLight := { _currentPhase := newPhase, mq := s.tl.mq.send newPhase }
    { tl := tl', timeSinceLastUpdate := 0 + measured }
  else
    { s with timeSinceLastUpdate := s.timeSinceLastUpdate + measured }

/-- `TrafficLight::cycleThroughPhases` run for as many iterations as there are
measured durations. -/
def cycleThroughPhases (randomSeconds : ℚ) (measured : List ℚ) (s : CycleState) :
    CycleState :=
  measured.foldl (fun acc m => cycleIteration randomSeconds m acc) s

/-- The number of iterations of such a run that toggle the phase. -/
def flipCount (randomSeconds : ℚ) : List ℚ → CycleState → Nat
  | [], _ => 0
  | m :: ms, s =>
    (if flipDue randomSeconds s.timeSinceLastUpdate then 1 else 0) +
      flipCount randomSeconds ms (cycleIteration randomSeconds m s)

/-- The state in which the timing loop starts on a newly constructed light.  The
local `timeSinceLastUpdate` is declared without an initial value (line 86), so its
first value `e0` is arbitrary. -/
def CycleState.start (e0 : ℚ) : CycleState :=
  { tl := TrafficLight.new, timeSinceLastUpdate := e0 }

/-- What the threads of an execution do to one light: an iteration of the timing
loop, or a call of `receive` on the channel, of `waitForGreen` (with a bound on its
`receive` calls), or of `getCurrentPhase`. -/
inductive Op where
  | cycle (measured : ℚ)
  | receive
  | waitForGreen (fuel : Nat)
  | getCurrentPhase
deriving DecidableEq

/-- The state after one operation.  Calls that block change nothing. -/
def Op.step (randomSeconds : ℚ) (op : Op) (s : CycleState) : CycleState :=
  match op with
  | .cycle measured => cycleIteration randomSeconds measured s
  | .receive =>
    match s.tl.mq.receive with
    | some (_, mq') => { s with tl := { s.tl with mq := mq' } }
    | none => s
  | .waitForGreen fuel =>
    match s.tl.waitForGreen fuel with
    | some (_, tl') => { s with tl := tl' }
    | none => s
  | .getCurrentPhase => s

/-- The state after a sequence of operations. -/
def exec (randomSeconds : ℚ) (ops : List Op) (s : CycleState) : CycleState :=
  ops.foldl (fun acc op => op.step randomSeconds acc) s

/-- The values written to `_currentPhase` during a sequence of operations, in
order: the value each toggling iteration of the timing loop assigns. -/
def writes (randomSeconds : ℚ) : List Op → CycleState → List TrafficLightPhase
  | [], _ => []
  | op :: ops, s =>
    match op with
    | .cycle measured =>
      if flipDue randomSeconds s.timeSinceLastUpdate then
        (cycleIteration randomSeconds measured s).tl._currentPhase ::
          writes randomSeconds ops (cycleIteration randomSeconds measured s)
      else writes randomSeconds ops (cycleIteration randomSeconds measured s)
    | _ => writes randomSeconds ops (op.step randomSeconds s)

/-- The sequence `p, toggle p, p, ...` of length `n`. -/
def alternating (p : TrafficLightPhase) : Nat → List TrafficLightPhase
  | 0 => []
  | n + 1 => p :: alternating (toggle p) n

/-- The channel is empty or holds the current phase. -/
def Published (tl : TrafficLight) : Prop :=
  tl.mq._queue = [] ∨ tl.mq._queue = [tl._currentPhase]

/-! ## Locks -/

/-- The two mutexes of the source: `_mutex` of the `TrafficLight` instance (locked on
line 52) and `_mutex` of its `MessageQueue` (locked on lines 22 and 35). -/
inductive Lock where
  | lightMutex
  | queueMutex
deriving DecidableEq, Repr

/-- What a thread does with a lock: lock it, wait on the condition variable paired
with it (the lock is given up while the thread is blocked and held again when the
wait returns), or unlock it. -/
inductive LockEvent where
  | acquire (l : Lock)
  | wait (l : Lock)
  | release (l : Lock)
deriving DecidableEq, Repr

/-- The calls a thread can make on a light and its channel.  `waitForGreen` carries
the number of phases it discards before the green one; `cycleThroughPhases` carries,
for each of its iterations, whether the iteration toggles. -/
inductive Call where
  | send
  | receive
  | waitForGreen (discarded : Nat)
  | getCurrentPhase
  | simulate
  | cycleThroughPhases (toggles : List Bool)
deriving DecidableEq, Repr

/-- Lock events of `MessageQueue::receive`: `unique_lock` on line 22, `_cond.wait` on
line 23, unlock when `ulock` goes out of scope. -/
def receiveLocks : List LockEvent :=
  [.acquire .queueMutex, .wait .queueMutex, .release .queueMutex]

/-- Lock events of `MessageQueue::send`: `lock_guard` on line 35, unlock at the end
of the function. -/
def sendLocks : List LockEvent :=
  [.acquire .queueMutex, .release .queueMutex]

/-- Lock events of a call.  `waitForGreen` takes the `lock_guard` of line 52 before
its loop and keeps it until it returns; every round of the loop calls `receive`.
An iteration of `cycleThroughPhases` calls `send` when it toggles and takes no lock
of its own (the `lock_guard` of line 84 is commented out).  `getCurrentPhase` and
`simulate` take no lock. -/
def Call.locks : Call → List LockEvent
  | .send => sendLocks
  | .receive => receiveLocks
  | .waitForGreen discarded =>
    .acquire .lightMutex ::
      ((List.replicate (discarded + 1) receiveLocks).flatten ++ [.release .lightMutex])
  | .getCurrentPhase => []
  | .simulate => []
  | .cycleThroughPhases toggles =>
    (toggles.map (fun t => if t then sendLocks else [])).flatten

/-- The lock events of a thread that makes the given calls one after the other. -/
def threadLocks (calls : List Call) : List LockEvent :=
  (calls.map Call.locks).flatten

/-- The locks a thread holds after an event, given those it held before. -/
def holdsAfter (held : List Lock) : LockEvent → List Lock
  | .acquire l => l :: held
  | .wait _ => held
  | .release l => held.erase l

/-- The locks a thread holds after a trace of events. -/
def holdsAfterAll (held : List Lock) (evs : List LockEvent) : List Lock :=
  evs.foldl holdsAfter held

/-- Whether at some point of a trace the thread holds both mutexes. -/
def everHoldsBoth : List Lock → List LockEvent → Bool
  | _, [] => false
  | held, ev :: evs =>
    (decide (Lock.lightMutex ∈ holdsAfter held ev) &&
      decide (Lock.queueMutex ∈ holdsAfter held ev)) ||
    everHoldsBoth (holdsAfter held ev) evs

/-- Whether at some point of a trace the thread locks, or waits on, the channel's
mutex while it holds the light's mutex. -/
def entersQueueHoldingLight : List Lock → List LockEvent → Bool
  | _, [] => false
  | held, ev :: evs =>
    (match ev with
      | .acquire l => decide (l = Lock.queueMutex) && decide (Lock.lightMutex ∈ held)
      | .wait l => decide (l = Lock.queueMutex) && decide (Lock.lightMutex ∈ held)
      | .release _ => false) ||
    entersQueueHoldingLight (holdsAfter held ev) evs

/-- Whether at some point of a trace the thread locks the light's mutex while it
holds the channel's mutex. -/
def entersLightHoldingQueue : List Lock → List LockEvent → Bool
  | _, [] => false
  | held, ev :: evs =>
    (match ev with
      | .acquire l => decide (l = Lock.lightMutex) && decide (Lock.queueMutex ∈ held)
      | _ => false) ||
    entersLightHoldingQueue (holdsAfter held ev) evs

/-- A trace that never takes the light's mutex while the channel's is held and that
gives back every lock it takes. -/
def Ordered (evs : List LockEvent) : Prop :=
  ∀ held : List Lock, Lock.queueMutex ∉ held →
    entersLightHoldingQueue held evs = false ∧ holdsAfterAll held evs = held

/-- Whether the thread holds the light's mutex at every event of a trace at which it
locks, or waits on, the channel's mutex. -/
def queueAlwaysUnderLight : List Lock → List LockEvent → Bool
  | _, [] => true
  | held, ev :: evs =>
    (match ev with
      | .acquire l => !decide (l = Lock.queueMutex) || decide (Lock.lightMutex ∈ held)
      | .wait l => !decide (l = Lock.queueMutex) || decide (Lock.lightMutex ∈ held)
      | .release _ => true) &&
    queueAlwaysUnderLight (holdsAfter held ev) evs

/-- Whether the thread holds the lock `l` after every event of a trace. -/
def holdsThroughout (l : Lock) : List Lock → List LockEvent → Bool
  | _, [] => true
  | held, ev :: evs =>
    decide (l ∈ holdsAfter held ev) && holdsThroughout l (holdsAfter held ev) evs

/-- Whether a trace ever locks the light's mutex. -/
def locksLight (evs : List LockEvent) : Bool :=
  evs.any (fun ev => decide (ev = .acquire .lightMutex))

/-- A call other than `waitForGreen`. -/
def Call.isWaitForGreen : Call → Bool
  | .waitForGreen _ => true
  | _ => false

/-! ## Channel lemmas -/

theorem MessageQueue.send_queue {T : Type} (q : MessageQueue T) (v : T) :
    (q.send v)._queue = [v] := by
  simp [MessageQueue.send]

theorem MessageQueue.send_eq {T : Type} (q : MessageQueue T) (v : T) :
    q.send v = { _queue := [v] } := by
  simp [MessageQueue.send]

theorem MessageQueue.receive_send {T : Type} (q : MessageQueue T) (v : T) :
    (q.send v).receive = some (v, q.send v) := by
  simp [MessageQueue.receive, MessageQueue.send]

theorem MessageQueue.receive_state {T : Type} (q q' : MessageQueue T) (v : T)
    (h : q.receive = some (v, q')) : q' = q := by
  unfold MessageQueue.receive at h
  cases hq : q._queue.getLast? with
  | none => rw [hq] at h; cases h
  | some w => rw [hq] at h; simp at h; exact h.2.symm

theorem ChanOp.apply_receive {T : Type} (q : MessageQueue T) :
    (ChanOp.receive : ChanOp T).apply q = q := by
  unfold ChanOp.apply
  cases h : q.receive with
  | none => rfl
  | some p =>
    obtain ⟨v, q'⟩ := p
    exact MessageQueue.receive_state q q' v h

theorem ChanOp.apply_length {T : Type} (op : ChanOp T) (q : MessageQueue T)
    (h : q._queue.length ≤ 1) : (op.apply q)._queue.length ≤ 1 := by
  cases op with
  | send v => simp [ChanOp.apply, MessageQueue.send]
  | receive => rw [ChanOp.apply_receive]; exact h

theorem runOps_length {T : Type} (ops : List (ChanOp T)) :
    ∀ q : MessageQueue T, q._queue.length ≤ 1 → (runOps ops q)._queue.length ≤ 1 := by
  induction ops with
  | nil => intro q h; exact h
  | cons op ops ih =>
    intro q h
    exact ih (op.apply q) (ChanOp.apply_length op q h)

/-- Values returned by later receives come from the pending value or a later send. -/
theorem received_mem {T : Type} (ops : List (ChanOp T)) :
    ∀ (q : MessageQueue T) (x : T), x ∈ received ops q →
      x ∈ q._queue ∨ ChanOp.send x ∈ ops := by
  induction ops with
  | nil => intro q x h; simp [received] at h
  | cons op ops ih =>
    intro q x h
    cases op with
    | send v =>
      simp only [received, ChanOp.result] at h
      rcases ih _ x h with h1 | h1
      · simp [ChanOp.apply, MessageQueue.send] at h1
        right; simp [h1]
      · right; simp [h1]
    | receive =>
      rw [received, ChanOp.apply_receive] at h
      cases hr : q._queue.getLast? with
      | none =>
        simp only [ChanOp.result, MessageQueue.receive, hr, Option.map] at h
        rcases ih _ x h with h1 | h1
        · left; exact h1
        · right; simp [h1]
      | some w =>
        simp only [ChanOp.result, MessageQueue.receive, hr, Option.map,
          List.mem_cons] at h
        rcases h with h | h
        · left; subst h; exact List.mem_of_getLast?_eq_some hr
        · rcases ih _ x h with h1 | h1
          · left; exact h1
          · right; simp [h1]

/-! ## Channel theorems -/

/-- C1 (as the code behaves): `receive` returns the pending value and leaves it in
the channel.  On the channel holding `green`, `receive` returns `green`, the channel
still holds `green`, and a second `receive` with no send in between returns `green`
again instead of blocking; in general a `receive` that returns never changes the
channel. -/
theorem receive_keeps_pending_value :
    (MessageQueue.mk [green]).receive = some (green, MessageQueue.mk [green]) ∧
    received [ChanOp.send green, ChanOp.receive, ChanOp.receive]
      (MessageQueue.empty : MessageQueue TrafficLightPhase) = [green, green] ∧
    (∀ (q q' : MessageQueue TrafficLightPhase) (v : TrafficLightPhase),
      q.receive = some (v, q') → q'._queue ≠ [] ∧ q'.receive = some (v, q')) := by
  refine ⟨by decide, by decide, ?_⟩
  intro q q' v h
  have hq := MessageQueue.receive_state q q' v h
  subst hq
  refine ⟨?_, h⟩
  intro hnil
  simp [MessageQueue.receive, hnil] at h

/-- C2: single-slot overwrite.  `send v1` then `send v2` leaves the channel in the
state `send v2` alone leaves it in; the next `receive` returns `v2`; every later
sequence of operations returns the same values as after `send v2` alone; and when
`v1` differs from `v2` and is not sent again, no later `receive` returns `v1`. -/
theorem send_overwrites_pending {T : Type} (q : MessageQueue T) (v1 v2 : T) :
    (q.send v1).send v2 = q.send v2 ∧
    (ChanOp.receive : ChanOp T).result ((q.send v1).send v2) = some v2 ∧
    (∀ ops : List (ChanOp T),
      received ops ((q.send v1).send v2) = received ops (q.send v2)) ∧
    (∀ ops : List (ChanOp T), v1 ≠ v2 → ChanOp.send v1 ∉ ops →
      v1 ∉ received ops ((q.send v1).send v2)) := by
  have h1 : (q.send v1).send v2 = q.send v2 := by
    simp [MessageQueue.send]
  refine ⟨h1, ?_, ?_, ?_⟩
  · simp [ChanOp.result, MessageQueue.receive_send]
  · intro ops; rw [h1]
  · intro ops hne hops hmem
    rcases received_mem ops _ v1 hmem with h | h
    · rw [MessageQueue.send_queue] at h
      simp at h
      exact hne h
    · exact hops h

/-- C3: capacity invariant.  After every finite sequence of `send` and `receive`
operations on the empty channel at most one value is pending, and right after
`send v` the channel holds exactly `v`, whatever it held before. -/
theorem capacity_at_most_one {T : Type} (ops : List (ChanOp T)) :
    (runOps ops (MessageQueue.empty : MessageQueue T))._queue.length ≤ 1 ∧
    (∀ (q : MessageQueue T) (v : T), (q.send v)._queue = [v]) := by
  refine ⟨runOps_length ops _ (by simp [MessageQueue.empty]), ?_⟩
  intro q v
  exact MessageQueue.send_queue q v

/-! ## `waitForGreen` -/

/-- Whatever the source of received values, a `waitForGreen` loop that returns,
returns `green`. -/
theorem waitForGreenLoop_green {σ : Type} (recv : σ → Option (TrafficLightPhase × σ)) :
    ∀ (fuel : Nat) (s s' : σ) (p : TrafficLightPhase),
      waitForGreenLoop recv fuel s = some (p, s') → p = green := by
  intro fuel
  induction fuel with
  | zero => intro s s' p h; simp [waitForGreenLoop] at h
  | succ n ih =>
    intro s s' p h
    unfold waitForGreenLoop at h
    cases hr : recv s with
    | none => rw [hr] at h; cases h
    | some r =>
      obtain ⟨c, s1⟩ := r
      rw [hr] at h
      by_cases hc : c = green
      · simp [hc] at h; exact h.1.symm
      · simp [hc] at h; exact ih s1 s' p h

theorem waitForGreenLoop_deliver (fuel : Nat) :
    ∀ (l rest : List TrafficLightPhase) (p : TrafficLightPhase),
      waitForGreenLoop deliver fuel l = some (p, rest) ↔
        p = green ∧ ∃ pre : List TrafficLightPhase,
          pre.length < fuel ∧ (∀ x ∈ pre, x = red) ∧ l = pre ++ green :: rest := by
  induction fuel with
  | zero => intro l rest p; simp [waitForGreenLoop]
  | succ n ih =>
    intro l rest p
    cases l with
    | nil => simp [waitForGreenLoop, deliver]
    | cons x xs =>
      cases x with
      | green =>
        simp only [waitForGreenLoop, deliver, if_true, Option.some.injEq, Prod.mk.injEq]
        constructor
        · rintro ⟨h1, h2⟩
          exact ⟨h1.symm, [], by simp, by simp, by simp [h2]⟩
        · rintro ⟨h1, pre, _, hred, hl⟩
          cases pre with
          | nil => simp at hl; exact ⟨h1.symm, hl⟩
          | cons y ys =>
            simp at hl
            have := hred y (by simp)
            rw [← hl.1] at this
            cases this
      | red =>
        have hne : (red = green) = False := by simp
        simp only [waitForGreenLoop, deliver, hne, if_false]
        rw [ih xs rest p]
        constructor
        · rintro ⟨h1, pre, hlen, hred, hl⟩
          refine ⟨h1, red :: pre, by simp; omega, ?_, by simp [hl]⟩
          intro x hx
          simp at hx
          rcases hx with hx | hx
          · exact hx
          · exact hred x hx
        · rintro ⟨h1, pre, hlen, hred, hl⟩
          cases pre with
          | nil => simp at hl
          | cons y ys =>
            simp at hl hlen
            refine ⟨h1, ys, by omega, ?_, hl.2⟩
            intro x hx
            exact hred x (by simp [hx])

/-- C4: `waitForGreen` returns only green.  Over a sequence of phases delivered by
successive `receive` calls, the loop returns `p` and leaves `rest` undelivered exactly
when `p` is `green` and the sequence is some phases that are all `red`, then a
`green`, then `rest` (with enough rounds to get there): it returns at the first green
and never returns `red`.  The same holds for the call on a light: a returned phase is
`green`. -/
theorem waitForGreen_returns_first_green (fuel : Nat) (l rest : List TrafficLightPhase)
    (p : TrafficLightPhase) :
    (waitForGreenLoop deliver fuel l = some (p, rest) ↔
      p = green ∧ ∃ pre : List TrafficLightPhase,
        pre.length < fuel ∧ (∀ x ∈ pre, x = red) ∧ l = pre ++ green :: rest) ∧
    (∀ (tl tl' : TrafficLight) (r : TrafficLightPhase),
      tl.waitForGreen fuel = some (r, tl') → r = green ∧ r ≠ red) := by
  refine ⟨waitForGreenLoop_deliver fuel l rest p, ?_⟩
  intro tl tl' r h
  unfold TrafficLight.waitForGreen at h
  cases hw : waitForGreenLoop MessageQueue.receive fuel tl.mq with
  | none => rw [hw] at h; cases h
  | some x =>
    obtain ⟨c, q⟩ := x
    rw [hw] at h
    simp at h
    have := waitForGreenLoop_green MessageQueue.receive fuel tl.mq q c hw
    rw [← h.1, this]
    simp

/-! ## The timing loop: lemmas -/

theorem toggle_ne (p : TrafficLightPhase) : toggle p ≠ p := by
  cases p <;> decide

theorem toggle_toggle (p : TrafficLightPhase) : toggle (toggle p) = p := by
  cases p <;> decide

theorem cycleIteration_due (t m : ℚ) (s : CycleState) (h : flipDue t s.timeSinceLastUpdate) :
    cycleIteration t m s =
      { tl := { _currentPhase := toggle s.tl._currentPhase,
                mq := s.tl.mq.send (toggle s.tl._currentPhase) },
        timeSinceLastUpdate := 0 + m } := by
  simp [cycleIteration, h]

theorem cycleIteration_not_due (t m : ℚ) (s : CycleState)
    (h : ¬ flipDue t s.timeSinceLastUpdate) :
    cycleIteration t m s = { s with timeSinceLastUpdate := s.timeSinceLastUpdate + m } := by
  simp [cycleIteration, h]

theorem truncSec_le (e : ℚ) (h : 0 ≤ e) : (truncSec e : ℚ) ≤ e := by
  simp only [truncSec, h, if_true]
  exact Int.floor_le e

theorem truncSec_nonpos (e : ℚ) (h : ¬ 0 ≤ e) : (truncSec e : ℚ) ≤ 0 := by
  simp only [truncSec, h, if_false]
  have : ⌈e⌉ ≤ 0 := by
    rw [Int.ceil_le]
    push_neg at h
    exact_mod_cast h.le
  exact_mod_cast this

/-- For a positive threshold the test of line 96 compares the elapsed time with the
threshold rounded up to whole seconds. -/
theorem flipDue_iff_ceil (t e : ℚ) (ht : 0 < t) : flipDue t e ↔ ((⌈t⌉ : ℤ) : ℚ) ≤ e := by
  unfold flipDue
  by_cases h : 0 ≤ e
  · simp only [truncSec, h, if_true]
    rw [← Int.le_floor, ← Int.ceil_le]
  · have h1 := truncSec_nonpos e h
    have h2 : t ≤ ((⌈t⌉ : ℤ) : ℚ) := Int.le_ceil t
    push_neg at h
    constructor
    · intro h3; linarith
    · intro h3; linarith

theorem waitForGreenLoop_receive_state (fuel : Nat) :
    ∀ (q0 q : MessageQueue TrafficLightPhase) (c : TrafficLightPhase),
      waitForGreenLoop MessageQueue.receive fuel q0 = some (c, q) → q = q0 := by
  induction fuel with
  | zero => intro q0 q c hl; simp [waitForGreenLoop] at hl
  | succ n ih =>
    intro q0 q c hl
    unfold waitForGreenLoop at hl
    cases hr : q0.receive with
    | none => rw [hr] at hl; cases hl
    | some y =>
      obtain ⟨d, q1⟩ := y
      rw [hr] at hl
      have h1 := MessageQueue.receive_state _ _ _ hr
      subst h1
      by_cases hd : d = green
      · simp [hd] at hl; exact hl.2.symm
      · simp [hd] at hl; exact ih _ _ _ hl

theorem Op.step_tl (t : ℚ) (op : Op) (s : CycleState) (h : ∀ m, op ≠ Op.cycle m) :
    (op.step t s).tl = s.tl := by
  cases op with
  | cycle m => exact absurd rfl (h m)
  | receive =>
    simp only [Op.step]
    cases hr : s.tl.mq.receive with
    | none => rfl
    | some r =>
      obtain ⟨v, q'⟩ := r
      have := MessageQueue.receive_state _ _ _ hr
      simp [this]
  | waitForGreen fuel =>
    simp only [Op.step]
    cases hw : s.tl.waitForGreen fuel with
    | none => rfl
    | some r =>
      obtain ⟨v, tl'⟩ := r
      simp only
      unfold TrafficLight.waitForGreen at hw
      cases hl : waitForGreenLoop MessageQueue.receive fuel s.tl.mq with
      | none => rw [hl] at hw; cases hw
      | some x =>
        obtain ⟨c, q⟩ := x
        rw [hl] at hw
        simp at hw
        rw [← hw.2]
        have hq : q = s.tl.mq := waitForGreenLoop_receive_state fuel _ _ _ hl
        rw [hq]
  | getCurrentPhase => rfl

theorem writes_alternating (t : ℚ) (ops : List Op) :
    ∀ s : CycleState,
      writes t ops s = alternating (toggle s.tl._currentPhase) (writes t ops s).length ∧
      (exec t ops s).tl._currentPhase =
        (s.tl._currentPhase :: writes t ops s).getLast (by simp) := by
  induction ops with
  | nil => intro s; simp [writes, alternating, exec]
  | cons op ops ih =>
    intro s
    have hexec : exec t (op :: ops) s = exec t ops (op.step t s) := by
      simp [exec]
    cases op with
    | cycle m =>
      by_cases hd : flipDue t s.timeSinceLastUpdate
      · have hw : writes t (Op.cycle m :: ops) s =
            (cycleIteration t m s).tl._currentPhase ::
              writes t ops (cycleIteration t m s) := by
          simp [writes, hd]
        have hp : (cycleIteration t m s).tl._currentPhase = toggle s.tl._currentPhase := by
          rw [cycleIteration_due t m s hd]
        obtain ⟨ih1, ih2⟩ := ih (cycleIteration t m s)
        refine ⟨?_, ?_⟩
        · rw [hw, List.length_cons, alternating, ← hp]
          congr 1
        · rw [hexec]
          simp only [Op.step]
          rw [ih2, hw]
          simp [List.getLast_cons]
      · have hw : writes t (Op.cycle m :: ops) s = writes t ops (cycleIteration t m s) := by
          simp [writes, hd]
        have hp : (cycleIteration t m s).tl._currentPhase = s.tl._currentPhase := by
          rw [cycleIteration_not_due t m s hd]
        obtain ⟨ih1, ih2⟩ := ih (cycleIteration t m s)
        refine ⟨?_, ?_⟩
        · rw [hw, ← hp]; exact ih1
        · rw [hexec]
          simp only [Op.step]
          rw [ih2, hw]
          simp [hp]
    | receive =>
      have hp := Op.step_tl t Op.receive s (by intro m; simp)
      have hw : writes t (Op.receive :: ops) s = writes t ops (Op.receive.step t s) := by
        simp [writes]
      obtain ⟨ih1, ih2⟩ := ih (Op.receive.step t s)
      rw [hp] at ih1 ih2
      exact ⟨by rw [hw]; exact ih1, by rw [hexec, ih2, hw]⟩
    | waitForGreen fuel =>
      have hp := Op.step_tl t (Op.waitForGreen fuel) s (by intro m; simp)
      have hw : writes t (Op.waitForGreen fuel :: ops) s =
          writes t ops ((Op.waitForGreen fuel).step t s) := by
        simp [writes]
      obtain ⟨ih1, ih2⟩ := ih ((Op.waitForGreen fuel).step t s)
      rw [hp] at ih1 ih2
      exact ⟨by rw [hw]; exact ih1, by rw [hexec, ih2, hw]⟩
    | getCurrentPhase =>
      have hp := Op.step_tl t Op.getCurrentPhase s (by intro m; simp)
      have hw : writes t (Op.getCurrentPhase :: ops) s =
          writes t ops (Op.getCurrentPhase.step t s) := by
        simp [writes]
      obtain ⟨ih1, ih2⟩ := ih (Op.getCurrentPhase.step t s)
      rw [hp] at ih1 ih2
      exact ⟨by rw [hw]; exact ih1, by rw [hexec, ih2, hw]⟩

theorem alternating_chain (n : Nat) :
    ∀ p : TrafficLightPhase, List.Chain' (fun a b => a ≠ b) (alternating p n) := by
  induction n with
  | zero => intro p; simp [alternating]
  | succ n ih =>
    intro p
    cases n with
    | zero => simp [alternating]
    | succ k =>
      have := ih (toggle p)
      simp only [alternating] at this ⊢
      rw [List.chain'_cons]
      exact ⟨(toggle_ne p).symm, this⟩

theorem Op.step_published (t : ℚ) (op : Op) (s : CycleState) (h : Published s.tl) :
    Published (op.step t s).tl := by
  cases op with
  | cycle m =>
    simp only [Op.step]
    by_cases hd : flipDue t s.timeSinceLastUpdate
    · rw [cycleIteration_due t m s hd]
      right
      simp [MessageQueue.send]
    · rw [cycleIteration_not_due t m s hd]
      exact h
  | receive => rw [Op.step_tl t _ s (by intro m; simp)]; exact h
  | waitForGreen fuel => rw [Op.step_tl t _ s (by intro m; simp)]; exact h
  | getCurrentPhase => rw [Op.step_tl t _ s (by intro m; simp)]; exact h

theorem exec_published (t : ℚ) (ops : List Op) :
    ∀ s : CycleState, Published s.tl → Published (exec t ops s).tl := by
  induction ops with
  | nil => intro s h; exact h
  | cons op ops ih =>
    intro s h
    exact ih (op.step t s) (Op.step_published t op s h)

theorem flipCount_zero (t : ℚ) (ms : List ℚ) :
    ∀ s : CycleState, flipCount t ms s = 0 → (cycleThroughPhases t ms s).tl = s.tl := by
  induction ms with
  | nil => intro s _; rfl
  | cons m ms ih =>
    intro s h
    simp only [flipCount] at h
    by_cases hd : flipDue t s.timeSinceLastUpdate
    · simp [hd] at h
    · simp only [hd, if_false, Nat.zero_add] at h
      have := ih _ h
      simp only [cycleThroughPhases, List.foldl_cons] at this ⊢
      rw [this, cycleIteration_not_due t m s hd]

theorem flipCount_one (t : ℚ) (ms : List ℚ) :
    ∀ s : CycleState, flipCount t ms s = 1 →
      (cycleThroughPhases t ms s).tl =
        { _currentPhase := toggle s.tl._currentPhase,
          mq := s.tl.mq.send (toggle s.tl._currentPhase) } := by
  induction ms with
  | nil => intro s h; simp [flipCount] at h
  | cons m ms ih =>
    intro s h
    simp only [flipCount] at h
    by_cases hd : flipDue t s.timeSinceLastUpdate
    · simp only [hd, if_true] at h
      have h0 : flipCount t ms (cycleIteration t m s) = 0 := by omega
      have := flipCount_zero t ms _ h0
      simp only [cycleThroughPhases, List.foldl_cons] at this ⊢
      rw [this, cycleIteration_due t m s hd]
    · simp only [hd, if_false, Nat.zero_add] at h
      have := ih _ h
      simp only [cycleThroughPhases, List.foldl_cons] at this ⊢
      rw [this, cycleIteration_not_due t m s hd]

theorem cycleThroughPhases_accumulates (t : ℚ) (ms : List ℚ) :
    ∀ s : CycleState, flipCount t ms s = 0 →
      (cycleThroughPhases t ms s).timeSinceLastUpdate = s.timeSinceLastUpdate + ms.sum := by
  induction ms with
  | nil => intro s _; simp [cycleThroughPhases]
  | cons m ms ih =>
    intro s h
    simp only [flipCount] at h
    by_cases hd : flipDue t s.timeSinceLastUpdate
    · simp [hd] at h
    · simp only [hd, if_false, Nat.zero_add] at h
      have := ih _ h
      simp only [cycleThroughPhases, List.foldl_cons, List.sum_cons] at this ⊢
      rw [this, cycleIteration_not_due t m s hd]
      ring

/-- A run of the timing loop with threshold 5 seconds, the accumulator starting at 0
and every iteration measuring 3 seconds: the third and the fifth iteration toggle, a
`receive` in between writes nothing. -/
theorem writes_example :
    writes 5 [Op.cycle 3, Op.cycle 3, Op.cycle 3, Op.receive, Op.cycle 3, Op.cycle 3]
      (CycleState.start 0) = [green, red] := by
  norm_num [writes, cycleIteration, flipDue, truncSec, CycleState.start, Op.step,
    TrafficLight.new, MessageQueue.receive_send, toggle]

/-! ## The timing loop: theorems -/

/-- C5: phase alternation.  An iteration of the timing loop whose test holds changes
`_currentPhase` to the other phase; an iteration whose test fails, and every
operation other than an iteration of the timing loop, leaves `_currentPhase` as it
is.  So in every execution from the constructed state the values written to
`_currentPhase`, the constructor's `red` first, are `red, green, red, ...`, no two
consecutive ones equal, and the current phase is the last value written. -/
theorem phase_alternates (t e0 : ℚ) (ops : List Op) :
    (∀ (s : CycleState) (m : ℚ), flipDue t s.timeSinceLastUpdate →
      (cycleIteration t m s).tl._currentPhase = toggle s.tl._currentPhase ∧
      (cycleIteration t m s).tl._currentPhase ≠ s.tl._currentPhase) ∧
    (∀ (s : CycleState) (m : ℚ), ¬ flipDue t s.timeSinceLastUpdate →
      (cycleIteration t m s).tl._currentPhase = s.tl._currentPhase) ∧
    (∀ (s : CycleState) (op : Op), (∀ m, op ≠ Op.cycle m) →
      (op.step t s).tl._currentPhase = s.tl._currentPhase) ∧
    TrafficLight.new._currentPhase = red ∧
    red :: writes t ops (CycleState.start e0) =
      alternating red ((writes t ops (CycleState.start e0)).length + 1) ∧
    List.Chain' (fun a b => a ≠ b) (red :: writes t ops (CycleState.start e0)) ∧
    (exec t ops (CycleState.start e0)).tl._currentPhase =
      (red :: writes t ops (CycleState.start e0)).getLast (by simp) := by
  have hw := writes_alternating t ops (CycleState.start e0)
  have hstart : (CycleState.start e0).tl._currentPhase = red := rfl
  have halt : red :: writes t ops (CycleState.start e0) =
      alternating red ((writes t ops (CycleState.start e0)).length + 1) := by
    have h1 := hw.1
    rw [hstart] at h1
    have h2 : toggle red = green := by decide
    rw [alternating, h2]
    rw [h2] at h1
    exact congrArg (List.cons red) h1
  refine ⟨?_, ?_, ?_, rfl, halt, ?_, ?_⟩
  · intro s m hd
    rw [cycleIteration_due t m s hd]
    exact ⟨rfl, toggle_ne _⟩
  · intro s m hd
    rw [cycleIteration_not_due t m s hd]
  · intro s op hop
    rw [Op.step_tl t op s hop]
  · rw [halt]
    exact alternating_chain _ red
  · have h2 := hw.2
    simp only [hstart] at h2
    exact h2

/-- C9: published value equals committed phase.  A toggling iteration of the timing
loop passes the new phase to `send`, the channel then holds exactly that phase and
`_currentPhase` holds it too; so in every state reached from construction by
iterations of the timing loop and calls of `receive`, `waitForGreen` and
`getCurrentPhase`, the channel is empty or its pending value is `_currentPhase`. -/
theorem published_equals_committed (t e0 : ℚ) (ops : List Op) :
    (∀ (s : CycleState) (m : ℚ), flipDue t s.timeSinceLastUpdate →
      (cycleIteration t m s).tl.mq = s.tl.mq.send (toggle s.tl._currentPhase) ∧
      (cycleIteration t m s).tl._currentPhase = toggle s.tl._currentPhase ∧
      (cycleIteration t m s).tl.mq._queue = [(cycleIteration t m s).tl._currentPhase]) ∧
    ((exec t ops (CycleState.start e0)).tl.mq._queue = [] ∨
      (exec t ops (CycleState.start e0)).tl.mq._queue =
        [(exec t ops (CycleState.start e0)).tl._currentPhase]) := by
  refine ⟨?_, ?_⟩
  · intro s m hd
    rw [cycleIteration_due t m s hd]
    exact ⟨rfl, rfl, by simp [MessageQueue.send]⟩
  · exact exec_published t ops (CycleState.start e0) (Or.inl rfl)

/-- Bounds for one iteration of the timing loop.  With the threshold `t` in `[4, 6]`
seconds and `e` the value of `timeSinceLastUpdate` the iteration sees, an iteration
that changes the phase has `e ≥ 4`, and every iteration that sees `e ≥ 6` toggles the
phase and sends the new one.  A toggling iteration restarts the accumulator at the
duration it measured, and a run of iterations that do not toggle adds their measured
durations to it. -/
theorem interval_bounds (t m : ℚ) (s : CycleState) (h4 : 4 ≤ t) (h6 : t ≤ 6) :
    ((cycleIteration t m s).tl._currentPhase ≠ s.tl._currentPhase →
      4 ≤ s.timeSinceLastUpdate) ∧
    (6 ≤ s.timeSinceLastUpdate →
      (cycleIteration t m s).tl._currentPhase = toggle s.tl._currentPhase ∧
      (cycleIteration t m s).tl._currentPhase ≠ s.tl._currentPhase ∧
      (cycleIteration t m s).tl.mq = s.tl.mq.send (toggle s.tl._currentPhase)) ∧
    (flipDue t s.timeSinceLastUpdate →
      (cycleIteration t m s).timeSinceLastUpdate = m) ∧
    (∀ ms : List ℚ, flipCount t ms s = 0 →
      (cycleThroughPhases t ms s).timeSinceLastUpdate =
        s.timeSinceLastUpdate + ms.sum) := by
  have hpos : (0 : ℚ) < t := by linarith
  refine ⟨?_, ?_, ?_, fun ms h => cycleThroughPhases_accumulates t ms s h⟩
  rotate_left 2
  · intro hd
    rw [cycleIteration_due t m s hd]
    simp
  · intro hne
    by_cases hd : flipDue t s.timeSinceLastUpdate
    · rw [flipDue_iff_ceil t _ hpos] at hd
      have : t ≤ ((⌈t⌉ : ℤ) : ℚ) := Int.le_ceil t
      linarith
    · rw [cycleIteration_not_due t m s hd] at hne
      exact absurd rfl hne
  · intro h
    have hd : flipDue t s.timeSinceLastUpdate := by
      rw [flipDue_iff_ceil t _ hpos]
      have : ⌈t⌉ ≤ 6 := by
        rw [Int.ceil_le]
        exact_mod_cast h6
      have h' : ((⌈t⌉ : ℤ) : ℚ) ≤ 6 := by exact_mod_cast this
      linarith
    rw [cycleIteration_due t m s hd]
    exact ⟨rfl, toggle_ne _, rfl⟩

/-- The bounds for one iteration at threshold 5 seconds with 13/2 seconds accumulated:
the iteration toggles the constructed light to green. -/
theorem interval_bounds_witness :
    (4 : ℚ) ≤ 5 ∧ (5 : ℚ) ≤ 6 ∧
    (cycleIteration 5 (1/1000) ⟨TrafficLight.new, 13/2⟩).tl._currentPhase = green :=
  ⟨by norm_num, by norm_num,
    ((interval_bounds 5 (1/1000) ⟨TrafficLight.new, 13/2⟩ (by norm_num) (by norm_num)).2.1
      (by norm_num)).1⟩

theorem flipCount_append (t : ℚ) (a b : List ℚ) :
    ∀ s : CycleState,
      flipCount t (a ++ b) s = flipCount t a s + flipCount t b (cycleThroughPhases t a s) := by
  induction a with
  | nil => intro s; simp [flipCount, cycleThroughPhases]
  | cons m ms ih =>
    intro s
    simp only [List.cons_append, flipCount, List.append_eq, ih, cycleThroughPhases,
      List.foldl_cons, Nat.add_assoc]

/-- Duration of every phase that follows a toggle.  Let the threshold `t` be in
`[4, 6]` seconds and let an iteration toggle, measuring `m0`.  If the following
iterations, measuring `ms`, do not toggle and the next one does, the phase has lasted
`m0 + ms.sum ≥ 4` seconds when it ends; and as long as the iterations measuring
`ms` and then `m` have not toggled, the phase had lasted less than 6 seconds before
the last of them, so less than `6 + m` in all. -/
theorem phase_duration_after_toggle (t m0 : ℚ) (s0 : CycleState) (ms : List ℚ)
    (h4 : 4 ≤ t) (h6 : t ≤ 6) (hd : flipDue t s0.timeSinceLastUpdate) :
    (flipCount t ms (cycleIteration t m0 s0) = 0 →
      (cycleThroughPhases t ms (cycleIteration t m0 s0)).timeSinceLastUpdate =
        m0 + ms.sum) ∧
    (flipCount t ms (cycleIteration t m0 s0) = 0 →
      flipDue t (cycleThroughPhases t ms (cycleIteration t m0 s0)).timeSinceLastUpdate →
      4 ≤ m0 + ms.sum) ∧
    (∀ m : ℚ, flipCount t (ms ++ [m]) (cycleIteration t m0 s0) = 0 →
      m0 + ms.sum < 6 ∧ m0 + (ms ++ [m]).sum < 6 + m) := by
  have hpos : (0 : ℚ) < t := by linarith
  have hstart : (cycleIteration t m0 s0).timeSinceLastUpdate = m0 := by
    rw [cycleIteration_due t m0 s0 hd]
    simp
  have hacc : flipCount t ms (cycleIteration t m0 s0) = 0 →
      (cycleThroughPhases t ms (cycleIteration t m0 s0)).timeSinceLastUpdate =
        m0 + ms.sum := by
    intro h0
    rw [cycleThroughPhases_accumulates t ms _ h0, hstart]
  have hceil : t ≤ ((⌈t⌉ : ℤ) : ℚ) := Int.le_ceil t
  have hceil6 : ((⌈t⌉ : ℤ) : ℚ) ≤ 6 := by
    have : ⌈t⌉ ≤ 6 := by
      rw [Int.ceil_le]
      exact_mod_cast h6
    exact_mod_cast this
  refine ⟨hacc, ?_, ?_⟩
  · intro h0 hnext
    rw [hacc h0, flipDue_iff_ceil t _ hpos] at hnext
    linarith
  · intro m h0
    rw [flipCount_append] at h0
    have h1 : flipCount t ms (cycleIteration t m0 s0) = 0 := by omega
    have h2 : flipCount t [m] (cycleThroughPhases t ms (cycleIteration t m0 s0)) = 0 := by
      omega
    have hnot : ¬ flipDue t
        (cycleThroughPhases t ms (cycleIteration t m0 s0)).timeSinceLastUpdate := by
      intro hdue
      simp [flipCount, hdue] at h2
    rw [hacc h1, flipDue_iff_ceil t _ hpos] at hnot
    have hlt : m0 + ms.sum < 6 := by
      by_contra hge
      push_neg at hge
      exact hnot (le_trans hceil6 hge)
    refine ⟨hlt, ?_⟩
    rw [List.sum_append, List.sum_singleton]
    linarith

/-- The phase after a toggle at threshold 5 seconds: the toggling iteration and the
four after it measure one second each, and the next iteration toggles after 5
seconds. -/
theorem phase_duration_after_toggle_witness :
    flipDue 5 (CycleState.start 6).timeSinceLastUpdate ∧
    flipCount 5 [1, 1, 1, 1] (cycleIteration 5 1 (CycleState.start 6)) = 0 ∧
    (cycleThroughPhases 5 [1, 1, 1, 1]
      (cycleIteration 5 1 (CycleState.start 6))).timeSinceLastUpdate = 1 + [1, 1, 1, 1].sum :=
  have hd : flipDue 5 (CycleState.start 6).timeSinceLastUpdate := by
    norm_num [flipDue, truncSec, CycleState.start]
  have h0 : flipCount 5 [1, 1, 1, 1] (cycleIteration 5 1 (CycleState.start 6)) = 0 := by
    norm_num [flipCount, cycleIteration, flipDue, truncSec, CycleState.start]
  ⟨hd, h0,
    (phase_duration_after_toggle 5 1 (CycleState.start 6) [1, 1, 1, 1]
      (by norm_num) (by norm_num) hd).1 h0⟩

/-- C7 (where the code departs from it): the local `timeSinceLastUpdate` has no
initial value (line 86), so the first phase is not bounded.  With threshold 5 seconds:
when it starts at 6 the very first iteration toggles the new light to green although
no time has been measured; when it starts at -1000, four iterations measuring 3
seconds each (12 seconds in all) do not toggle and the light is still red. -/
theorem first_phase_duration_unbounded :
    (4 : ℚ) ≤ 5 ∧ (5 : ℚ) ≤ 6 ∧
    flipCount 5 [1/1000] (CycleState.start 6) = 1 ∧
    (cycleIteration 5 (1/1000) (CycleState.start 6)).tl._currentPhase = green ∧
    (cycleIteration 5 (1/1000) (CycleState.start 6)).tl.mq._queue = [green] ∧
    flipCount 5 [3, 3, 3, 3] (CycleState.start (-1000)) = 0 ∧
    (6 : ℚ) + 3 < [3, 3, 3, 3].sum ∧
    (cycleThroughPhases 5 [3, 3, 3, 3] (CycleState.start (-1000))).tl = TrafficLight.new := by
  have hd : flipDue 5 (CycleState.start 6).timeSinceLastUpdate := by
    norm_num [flipDue, truncSec, CycleState.start]
  have h1 := cycleIteration_due 5 (1/1000) (CycleState.start 6) hd
  have h0 : flipCount 5 [3, 3, 3, 3] (CycleState.start (-1000)) = 0 := by
    norm_num [flipCount, cycleIteration, flipDue, truncSec, CycleState.start, Int.ceil_neg]
  refine ⟨by norm_num, by norm_num, ?_, ?_, ?_, h0, by norm_num, ?_⟩
  · norm_num [flipCount, cycleIteration, flipDue, truncSec, CycleState.start]
  · rw [h1]; rfl
  · rw [h1]; rfl
  · rw [flipCount_zero 5 _ _ h0]; rfl

/-- C8 as stated fails: with threshold 9/2 seconds (in `[4, 6]`) and 47/10 seconds
accumulated, the elapsed time has reached the threshold, yet the iteration leaves the
light, phase and channel, as it was: the elapsed time is compared after truncation to
4 whole seconds. -/
theorem flip_condition_counterexample :
    (4 : ℚ) ≤ 9/2 ∧ (9/2 : ℚ) ≤ 6 ∧ (9/2 : ℚ) ≤ 47/10 ∧
    (cycleIteration (9/2) (1/1000) ⟨TrafficLight.new, 47/10⟩).tl = TrafficLight.new ∧
    (cycleIteration (9/2) (1/1000) ⟨TrafficLight.new, 47/10⟩).tl._currentPhase = red ∧
    (cycleIteration (9/2) (1/1000) ⟨TrafficLight.new, 47/10⟩).tl.mq._queue = [] := by
  have hd : ¬ flipDue (9/2) (47/10) := by
    norm_num [flipDue, truncSec]
  have h := cycleIteration_not_due (9/2) (1/1000) ⟨TrafficLight.new, 47/10⟩ hd
  refine ⟨by norm_num, by norm_num, by norm_num, ?_, ?_, ?_⟩ <;> rw [h] <;> rfl

/-- C8 (amended): flip condition.  With the threshold `t` in `[4, 6]` seconds and `e`
the time accumulated since the last toggle, an iteration of the timing loop toggles
`_currentPhase` and sends the new phase exactly when `t` is at most `e` truncated to
whole seconds, that is when `e` has reached `t` rounded up to whole seconds; when it
does not toggle, in particular whenever `e < t`, it leaves `_currentPhase` and the
channel unchanged. -/
theorem flip_condition_truncated (t m : ℚ) (s : CycleState) (h4 : 4 ≤ t) (_h6 : t ≤ 6) :
    (((cycleIteration t m s).tl._currentPhase = toggle s.tl._currentPhase ∧
        (cycleIteration t m s).tl.mq = s.tl.mq.send (toggle s.tl._currentPhase)) ↔
      t ≤ (truncSec s.timeSinceLastUpdate : ℚ)) ∧
    (t ≤ (truncSec s.timeSinceLastUpdate : ℚ) ↔
      ((⌈t⌉ : ℤ) : ℚ) ≤ s.timeSinceLastUpdate) ∧
    (¬ t ≤ (truncSec s.timeSinceLastUpdate : ℚ) → (cycleIteration t m s).tl = s.tl) ∧
    (s.timeSinceLastUpdate < t → (cycleIteration t m s).tl = s.tl) := by
  have hpos : (0 : ℚ) < t := by linarith
  have hceil := flipDue_iff_ceil t s.timeSinceLastUpdate hpos
  have hnot : ¬ t ≤ (truncSec s.timeSinceLastUpdate : ℚ) → (cycleIteration t m s).tl = s.tl := by
    intro hd
    rw [cycleIteration_not_due t m s hd]
  refine ⟨?_, hceil, hnot, ?_⟩
  · constructor
    · intro h
      by_contra hd
      have h1 := h.1
      rw [hnot hd] at h1
      exact toggle_ne _ h1.symm
    · intro hd
      rw [cycleIteration_due t m s hd]
      exact ⟨rfl, rfl⟩
  · intro hlt
    apply hnot
    intro hd
    have h1 : ((⌈t⌉ : ℤ) : ℚ) ≤ s.timeSinceLastUpdate := hceil.mp hd
    have h2 : t ≤ ((⌈t⌉ : ℤ) : ℚ) := Int.le_ceil t
    linarith

/-- Witness of C8 (amended): threshold 9/2 seconds; at 5 seconds accumulated the
iteration toggles the constructed light to green and sends green. -/
theorem flip_condition_truncated_witness :
    (4 : ℚ) ≤ 9/2 ∧ (9/2 : ℚ) ≤ 6 ∧
    (cycleIteration (9/2) (1/1000) ⟨TrafficLight.new, 5⟩).tl._currentPhase = green ∧
    (cycleIteration (9/2) (1/1000) ⟨TrafficLight.new, 5⟩).tl.mq._queue = [green] := by
  have h := (flip_condition_truncated (9/2) (1/1000) ⟨TrafficLight.new, 5⟩
    (by norm_num) (by norm_num)).1.mpr (by norm_num [truncSec])
  refine ⟨by norm_num, by norm_num, ?_, ?_⟩
  · rw [h.1]; rfl
  · rw [h.2]; rfl

/-- C6: the scenario from construction.  A new light reads `red`.  After a run of the
timing loop that toggles once the channel holds `green`, a `waitForGreen` that then
runs returns `green` at its first `receive`, and `getCurrentPhase` then reads
`green`; after a further run of the timing loop that toggles once,
`getCurrentPhase` reads `red` again. -/
theorem scenario_from_construction (t e0 : ℚ) (ms1 : List ℚ)
    (h1 : flipCount t ms1 (CycleState.start e0) = 1) :
    TrafficLight.new.getCurrentPhase = red ∧
    TrafficLight.new.mq._queue = [] ∧
    (cycleThroughPhases t ms1 (CycleState.start e0)).tl.mq._queue = [green] ∧
    (∀ fuel : Nat,
      (cycleThroughPhases t ms1 (CycleState.start e0)).tl.waitForGreen (fuel + 1) =
        some (green, (cycleThroughPhases t ms1 (CycleState.start e0)).tl)) ∧
    (cycleThroughPhases t ms1 (CycleState.start e0)).tl.getCurrentPhase = green ∧
    (∀ ms2 : List ℚ,
      flipCount t ms2 (cycleThroughPhases t ms1 (CycleState.start e0)) = 1 →
      (cycleThroughPhases t ms2
        (cycleThroughPhases t ms1 (CycleState.start e0))).tl.getCurrentPhase = red) := by
  have hs1 := flipCount_one t ms1 _ h1
  have hphase : (CycleState.start e0).tl._currentPhase = red := rfl
  have htog : toggle red = green := by decide
  rw [hphase, htog] at hs1
  refine ⟨rfl, rfl, ?_, ?_, ?_, ?_⟩
  · rw [hs1]; simp [MessageQueue.send]
  · intro fuel
    rw [hs1]
    simp [TrafficLight.waitForGreen, waitForGreenLoop, MessageQueue.receive_send]
  · rw [hs1]; rfl
  · intro ms2 h2
    rw [flipCount_one t ms2 _ h2, hs1]
    rfl

/-- Witness of C6: threshold 5 seconds, the accumulator starting at 0 and every
iteration measuring one second: the sixth iteration is the first to toggle. -/
theorem scenario_from_construction_witness :
    flipCount 5 [1, 1, 1, 1, 1, 1] (CycleState.start 0) = 1 ∧
    (cycleThroughPhases 5 [1, 1, 1, 1, 1, 1] (CycleState.start 0)).tl.mq._queue = [green] :=
  have h : flipCount 5 [1, 1, 1, 1, 1, 1] (CycleState.start 0) = 1 := by
    norm_num [flipCount, cycleIteration, flipDue, truncSec, CycleState.start]
  ⟨h, (scenario_from_construction 5 0 [1, 1, 1, 1, 1, 1] h).2.2.1⟩

/-! ## Locks: lemmas -/

theorem everHoldsBoth_without_light (evs : List LockEvent) :
    ∀ held : List Lock, locksLight evs = false → Lock.lightMutex ∉ held →
      everHoldsBoth held evs = false := by
  induction evs with
  | nil => intro held _ _; rfl
  | cons ev evs ih =>
    intro held hl hh
    simp only [locksLight, List.any_cons, Bool.or_eq_false_iff, decide_eq_false_iff_not] at hl
    have hrest : locksLight evs = false := hl.2
    have hnext : Lock.lightMutex ∉ holdsAfter held ev := by
      cases ev with
      | acquire l =>
        simp only [holdsAfter, List.mem_cons, not_or]
        refine ⟨?_, hh⟩
        intro h
        exact hl.1 (by rw [h])
      | wait l => exact hh
      | release l =>
        simp only [holdsAfter]
        intro h
        exact hh (List.mem_of_mem_erase h)
    simp only [everHoldsBoth, ih _ hrest hnext, Bool.or_false, Bool.and_eq_false_imp,
      decide_eq_true_eq]
    intro h
    exact absurd h hnext

theorem locksLight_append (a b : List LockEvent) :
    locksLight (a ++ b) = (locksLight a || locksLight b) := by
  simp [locksLight, List.any_append]

theorem locksLight_call (c : Call) (h : c.isWaitForGreen = false) :
    locksLight c.locks = false := by
  cases c with
  | send => decide
  | receive => decide
  | waitForGreen d => simp [Call.isWaitForGreen] at h
  | getCurrentPhase => decide
  | simulate => decide
  | cycleThroughPhases toggles =>
    induction toggles with
    | nil => rfl
    | cons b bs ih =>
      have ih' := ih rfl
      simp only [Call.locks, List.map_cons, List.flatten_cons] at ih' ⊢
      rw [locksLight_append, ih']
      cases b <;> decide

theorem locksLight_thread (calls : List Call) (h : ∀ c ∈ calls, c.isWaitForGreen = false) :
    locksLight (threadLocks calls) = false := by
  induction calls with
  | nil => rfl
  | cons c cs ih =>
    simp only [threadLocks, List.map_cons, List.flatten_cons] at ih ⊢
    rw [locksLight_append, locksLight_call c (h c (by simp)),
      ih (fun c' hc' => h c' (by simp [hc']))]
    rfl

theorem entersLightHoldingQueue_append (a b : List LockEvent) :
    ∀ held : List Lock,
      entersLightHoldingQueue held (a ++ b) =
        (entersLightHoldingQueue held a ||
          entersLightHoldingQueue (holdsAfterAll held a) b) := by
  induction a with
  | nil => intro held; simp [entersLightHoldingQueue, holdsAfterAll]
  | cons ev evs ih =>
    intro held
    simp only [List.cons_append, entersLightHoldingQueue, List.append_eq, ih, holdsAfterAll,
      List.foldl_cons, Bool.or_assoc]

theorem holdsAfterAll_append (a b : List LockEvent) (held : List Lock) :
    holdsAfterAll held (a ++ b) = holdsAfterAll (holdsAfterAll held a) b := by
  simp [holdsAfterAll, List.foldl_append]

theorem Ordered.append {a b : List LockEvent} (ha : Ordered a) (hb : Ordered b) :
    Ordered (a ++ b) := by
  intro held hq
  obtain ⟨ha1, ha2⟩ := ha held hq
  obtain ⟨hb1, hb2⟩ := hb held hq
  rw [entersLightHoldingQueue_append, holdsAfterAll_append, ha1, ha2, hb1, hb2]
  exact ⟨rfl, rfl⟩

theorem Ordered.nil : Ordered [] := by
  intro held _
  exact ⟨rfl, rfl⟩

theorem Ordered.flatten {ls : List (List LockEvent)} (h : ∀ l ∈ ls, Ordered l) :
    Ordered ls.flatten := by
  induction ls with
  | nil => exact Ordered.nil
  | cons l ls ih =>
    rw [List.flatten_cons]
    exact Ordered.append (h l (by simp)) (ih (fun l' hl' => h l' (by simp [hl'])))

theorem Ordered.receiveLocks : Ordered receiveLocks := by
  intro held hq
  simp [TrafficSim.receiveLocks, entersLightHoldingQueue, holdsAfterAll, holdsAfter]

theorem Ordered.sendLocks : Ordered sendLocks := by
  intro held hq
  simp [TrafficSim.sendLocks, entersLightHoldingQueue, holdsAfterAll, holdsAfter]

theorem Ordered.call (c : Call) : Ordered c.locks := by
  cases c with
  | send => exact Ordered.sendLocks
  | receive => exact Ordered.receiveLocks
  | getCurrentPhase => exact Ordered.nil
  | simulate => exact Ordered.nil
  | cycleThroughPhases toggles =>
    apply Ordered.flatten
    intro l hl
    simp only [List.mem_map] at hl
    obtain ⟨b, _, hb⟩ := hl
    cases b
    · simp at hb; subst hb; exact Ordered.nil
    · simp at hb; subst hb; exact Ordered.sendLocks
  | waitForGreen d =>
    have hmid : Ordered (List.replicate (d + 1) TrafficSim.receiveLocks).flatten := by
      apply Ordered.flatten
      intro l hl
      rw [List.eq_of_mem_replicate hl]
      exact Ordered.receiveLocks
    intro held hq
    have hq' : Lock.queueMutex ∉ Lock.lightMutex :: held := by
      simp [hq]
    obtain ⟨h1, h2⟩ := hmid (Lock.lightMutex :: held) hq'
    have hsplit : (Call.waitForGreen d).locks =
        [LockEvent.acquire Lock.lightMutex] ++
          ((List.replicate (d + 1) TrafficSim.receiveLocks).flatten ++
            [LockEvent.release Lock.lightMutex]) := rfl
    rw [hsplit, entersLightHoldingQueue_append, entersLightHoldingQueue_append,
      holdsAfterAll_append, holdsAfterAll_append]
    have h0 : holdsAfterAll held [LockEvent.acquire Lock.lightMutex] =
        Lock.lightMutex :: held := rfl
    rw [h0, h1, h2]
    simp [entersLightHoldingQueue, holdsAfterAll, holdsAfter, hq]

theorem queueAlwaysUnderLight_append (a b : List LockEvent) :
    ∀ held : List Lock,
      queueAlwaysUnderLight held (a ++ b) =
        (queueAlwaysUnderLight held a && queueAlwaysUnderLight (holdsAfterAll held a) b) := by
  induction a with
  | nil => intro held; simp [queueAlwaysUnderLight, holdsAfterAll]
  | cons ev evs ih =>
    intro held
    simp only [List.cons_append, queueAlwaysUnderLight, List.append_eq, ih, holdsAfterAll,
      List.foldl_cons, Bool.and_assoc]

theorem holdsThroughout_append (l : Lock) (a b : List LockEvent) :
    ∀ held : List Lock,
      holdsThroughout l held (a ++ b) =
        (holdsThroughout l held a && holdsThroughout l (holdsAfterAll held a) b) := by
  induction a with
  | nil => intro held; simp [holdsThroughout, holdsAfterAll]
  | cons ev evs ih =>
    intro held
    simp only [List.cons_append, holdsThroughout, List.append_eq, ih, holdsAfterAll,
      List.foldl_cons, Bool.and_assoc]

/-- Any number of `receive` calls made while the light's mutex is held: each locks and
waits on the channel's mutex under it, it stays held, and the locks held at the end
are those held at the start. -/
theorem receives_under_light (n : Nat) :
    ∀ held : List Lock, Lock.lightMutex ∈ held →
      queueAlwaysUnderLight held (List.replicate n receiveLocks).flatten = true ∧
      holdsThroughout Lock.lightMutex held (List.replicate n receiveLocks).flatten = true ∧
      holdsAfterAll held (List.replicate n receiveLocks).flatten = held := by
  induction n with
  | zero =>
    intro held _
    simp [queueAlwaysUnderLight, holdsThroughout, holdsAfterAll]
  | succ n ih =>
    intro held h
    have hone : queueAlwaysUnderLight held receiveLocks = true ∧
        holdsThroughout Lock.lightMutex held receiveLocks = true ∧
        holdsAfterAll held receiveLocks = held := by
      simp [receiveLocks, queueAlwaysUnderLight, holdsThroughout, holdsAfterAll,
        holdsAfter, h]
    obtain ⟨h1, h2, h3⟩ := hone
    obtain ⟨i1, i2, i3⟩ := ih held h
    rw [List.replicate_succ, List.flatten_cons, queueAlwaysUnderLight_append,
      holdsThroughout_append, holdsAfterAll_append, h1, h2, h3, i1, i2, i3]
    exact ⟨rfl, rfl, rfl⟩

theorem count_receives (n : Nat) (ev : LockEvent) :
    (List.replicate n receiveLocks).flatten.count ev = n * receiveLocks.count ev := by
  induction n with
  | zero => simp
  | succ n ih =>
    rw [List.replicate_succ, List.flatten_cons, List.count_append, ih]
    ring

/-! ## Locks: theorems -/

/-- C10 as stated fails: a thread that calls `waitForGreen` (returning at its first
`receive`) locks the light's mutex, then locks the channel's mutex and waits on the
channel's condition while it still holds the light's mutex; both are held together. -/
theorem lock_discipline_counterexample :
    threadLocks [Call.waitForGreen 0] =
      [LockEvent.acquire Lock.lightMutex, LockEvent.acquire Lock.queueMutex,
        LockEvent.wait Lock.queueMutex, LockEvent.release Lock.queueMutex,
        LockEvent.release Lock.lightMutex] ∧
    entersQueueHoldingLight [] (threadLocks [Call.waitForGreen 0]) = true ∧
    everHoldsBoth [] (threadLocks [Call.waitForGreen 0]) = true := by
  decide

/-- C10 (amended): lock discipline.  A call of `waitForGreen` that discards `d`
phases holds the light's mutex after every event but its last, which gives it back;
it makes `d + 1` calls of `receive`, and every one of them locks, and waits on, the
channel's mutex while the light's mutex is held, so the two are held together.  A
thread that makes any other calls (the timing loop, `send`, `receive`,
`getCurrentPhase`, `simulate`) never locks the light's mutex and so never holds both.
No thread, whatever it calls, locks the light's mutex while it holds the channel's:
the order is always the light's mutex first, and every call gives back the locks it
took. -/
theorem lock_discipline (calls : List Call) :
    (∀ d : Nat,
      holdsThroughout Lock.lightMutex [] (Call.waitForGreen d).locks.dropLast = true ∧
      (Call.waitForGreen d).locks.getLast? = some (LockEvent.release Lock.lightMutex) ∧
      queueAlwaysUnderLight [] (Call.waitForGreen d).locks = true ∧
      (Call.waitForGreen d).locks.count (LockEvent.acquire Lock.queueMutex) = d + 1 ∧
      (Call.waitForGreen d).locks.count (LockEvent.wait Lock.queueMutex) = d + 1 ∧
      (Call.waitForGreen d).locks.count (LockEvent.acquire Lock.lightMutex) = 1 ∧
      entersQueueHoldingLight [] (Call.waitForGreen d).locks = true ∧
      everHoldsBoth [] (Call.waitForGreen d).locks = true) ∧
    ((∀ c ∈ calls, c.isWaitForGreen = false) →
      locksLight (threadLocks calls) = false ∧
      everHoldsBoth [] (threadLocks calls) = false) ∧
    entersLightHoldingQueue [] (threadLocks calls) = false ∧
    holdsAfterAll [] (threadLocks calls) = [] := by
  refine ⟨?_, ?_, ?_⟩
  · intro d
    obtain ⟨r1, r2, r3⟩ := receives_under_light (d + 1) [Lock.lightMutex] (by simp)
    have hsplit : (Call.waitForGreen d).locks =
        ([LockEvent.acquire Lock.lightMutex] ++
          (List.replicate (d + 1) receiveLocks).flatten) ++
            [LockEvent.release Lock.lightMutex] := by
      simp [Call.locks]
    have hfirst : holdsAfterAll [] [LockEvent.acquire Lock.lightMutex] =
        [Lock.lightMutex] := rfl
    refine ⟨?_, ?_, ?_, ?_, ?_, ?_, ?_, ?_⟩
    · rw [hsplit, List.dropLast_concat, holdsThroughout_append, hfirst, r2]
      rfl
    · rw [hsplit, List.getLast?_concat]
    · rw [hsplit, queueAlwaysUnderLight_append, queueAlwaysUnderLight_append,
        holdsAfterAll_append, hfirst, r1, r3]
      rfl
    · rw [hsplit, List.count_append, List.count_append, count_receives]
      simp [receiveLocks, List.count_cons]
    · rw [hsplit, List.count_append, List.count_append, count_receives]
      simp [receiveLocks, List.count_cons]
    · rw [hsplit, List.count_append, List.count_append, count_receives]
      simp [receiveLocks, List.count_cons]
    · simp [Call.locks, List.replicate_succ, receiveLocks, entersQueueHoldingLight,
        holdsAfter]
    · simp [Call.locks, List.replicate_succ, receiveLocks, everHoldsBoth, holdsAfter]
  · intro h
    have hl := locksLight_thread calls h
    exact ⟨hl, everHoldsBoth_without_light _ [] hl (by simp)⟩
  · have hord : Ordered (threadLocks calls) := by
      apply Ordered.flatten
      intro l hl
      simp only [List.mem_map] at hl
      obtain ⟨c, _, hc⟩ := hl
      subst hc
      exact Ordered.call c
    exact hord [] (by simp)

/-- Witness of C10 (amended): a thread running three iterations of the timing loop,
the second of which toggles, then reading the phase, never holds both mutexes. -/
theorem lock_discipline_witness :
    (∀ c ∈ [Call.cycleThroughPhases [false, true, false], Call.getCurrentPhase],
      c.isWaitForGreen = false) ∧
    everHoldsBoth []
      (threadLocks [Call.cycleThroughPhases [false, true, false], Call.getCurrentPhase])
      = false :=
  ⟨by decide,
    ((lock_discipline
      [Call.cycleThroughPhases [false, true, false], Call.getCurrentPhase]).2.1
        (by decide)).2⟩

end TrafficSim
